import Mathlib

/-!
Verification of the interactive TUI core of `backlog-cli` (`src/main.rs`).

The embedding models the session data (`BacklogItem`, `Backlog`, `App`), the
operations of `impl App`, the custom list renderer's wrapping / numbering /
scroll bookkeeping, and the key-event state machine of `run_tui`.  Strings are
modelled as `List Char` (Rust code-point sequences); timestamps as `Nat`
(opaque); file paths and the save side effect are not modelled (persistence is
best-effort I/O that never changes the in-memory state).
-/

namespace BacklogTui

/-- One backlog entry (`struct BacklogItem`): description, creation timestamp,
done flag.  `created_at : Nat` stands in for the `DateTime<Utc>` value, which
the core never inspects. -/
structure BacklogItem where
  description : List Char
  created_at : Nat
  done : Bool
deriving DecidableEq

/-- `struct Backlog { items: Vec<BacklogItem> }`. -/
structure Backlog where
  items : List BacklogItem
deriving DecidableEq

/-- `enum Mode { Normal, Edit, Add, ConfirmDelete }`. -/
inductive Mode where
  | normal
  | edit
  | add
  | confirmDelete
deriving DecidableEq

/-- `struct App` (minus `backlog_path`, which only feeds the unmodelled save).
`output` is the `Option<String>` returned from the session; `running` models
whether the `run_tui` loop is still going (a `break` sets it to `false`). -/
structure App where
  backlog : Backlog
  selected : Nat
  scroll_offset : Nat
  mode : Mode
  edit_buffer : List Char
  edit_cursor : Nat
  output : Option (List Char)
  pending_d : Bool
  hide_completed : Bool
  running : Bool
deriving DecidableEq

/-- Rust's `Iterator::enumerate` starting at `n`. -/
def enumF {α : Type} (n : Nat) : List α → List (Nat × α)
  | [] => []
  | x :: xs => (n, x) :: enumF (n + 1) xs

/-- The visibility predicate `!self.hide_completed || !item.done`. -/
def vispred (hide_completed : Bool) (it : BacklogItem) : Bool :=
  !hide_completed || !it.done

/-- `App::visible_indices`: indices of visible items based on `hide_completed`
(`enumerate().filter(..).map(|(i, _)| i).collect()`). -/
def App.visible_indices (a : App) : List Nat :=
  ((enumF 0 a.backlog.items).filter (fun p => vispred a.hide_completed p.2)).map Prod.fst

/-- `App::visible_to_actual`: `self.visible_indices().get(visible_idx).copied()`. -/
def App.visible_to_actual (a : App) (visible_idx : Nat) : Option Nat :=
  a.visible_indices[visible_idx]?

/-- Rust's `Iterator::position` on a list of indices. -/
def position (p : Nat → Bool) : List Nat → Option Nat
  | [] => none
  | x :: xs => if p x then some 0 else (position p xs).map (· + 1)

/-- `App::actual_to_visible`: `self.visible_indices().iter().position(|&i| i == actual_idx)`. -/
def App.actual_to_visible (a : App) (actual_idx : Nat) : Option Nat :=
  position (fun i => i == actual_idx) a.visible_indices

/-- `self.visible_indices().len()`. -/
def App.visible_count (a : App) : Nat :=
  a.visible_indices.length

/-- The selection-reclamp block that appears verbatim in
`toggle_hide_completed`, `toggle_done` and `delete_selected`:
`if visible.is_empty() { selected = 0 } else if selected >= visible.len() { selected = visible.len() - 1 }`. -/
def clampSelection (a : App) : App :=
  let visible := a.visible_indices
  if visible = [] then { a with selected := 0 }
  else if visible.length ≤ a.selected then { a with selected := visible.length - 1 }
  else a

/-- `App::toggle_hide_completed`. -/
def App.toggle_hide_completed (a : App) : App :=
  clampSelection { a with hide_completed := !a.hide_completed }

/-- `App::move_up`. -/
def App.move_up (a : App) : App :=
  if 0 < a.selected then { a with selected := a.selected - 1 } else a

/-- `App::move_down`. -/
def App.move_down (a : App) : App :=
  if 0 < a.visible_count ∧ a.selected < a.visible_count - 1 then
    { a with selected := a.selected + 1 }
  else a

/-- In-place update of the element at one index (Rust `items[idx] = ...` /
field assignment through an index). -/
def modifyAt {α : Type} (f : α → α) : Nat → List α → List α
  | _, [] => []
  | 0, x :: xs => f x :: xs
  | n + 1, x :: xs => x :: modifyAt f n xs

/-- `self.backlog.items[i].done` (reads `false` out of range; in the code the
index always comes from `visible_indices`, so it is in range). -/
def doneAt (l : List BacklogItem) (i : Nat) : Bool :=
  match l[i]? with
  | some it => it.done
  | none => false

/-- `App::toggle_done`. -/
def App.toggle_done (a : App) : App :=
  match a.visible_to_actual a.selected with
  | none => a
  | some actual_idx =>
    let a2 : App :=
      { a with backlog := ⟨modifyAt (fun it => { it with done := !it.done }) actual_idx a.backlog.items⟩ }
    if a2.hide_completed && doneAt a2.backlog.items actual_idx then clampSelection a2 else a2

/-- Rust `Vec::swap` (no-op out of range; the code always calls it in range). -/
def swapIdx {α : Type} (l : List α) (i j : Nat) : List α :=
  match l[i]?, l[j]? with
  | some x, some y => (l.set i y).set j x
  | _, _ => l

/-- `App::move_item_up`. -/
def App.move_item_up (a : App) : App :=
  match a.visible_to_actual a.selected with
  | none => a
  | some actual_idx =>
    if 0 < actual_idx then
      let a2 : App := { a with backlog := ⟨swapIdx a.backlog.items actual_idx (actual_idx - 1)⟩ }
      match a2.actual_to_visible (actual_idx - 1) with
      | some new_visible_idx => { a2 with selected := new_visible_idx }
      | none => a2
    else a

/-- `App::move_item_down`. -/
def App.move_item_down (a : App) : App :=
  match a.visible_to_actual a.selected with
  | none => a
  | some actual_idx =>
    if actual_idx < a.backlog.items.length - 1 then
      let a2 : App := { a with backlog := ⟨swapIdx a.backlog.items actual_idx (actual_idx + 1)⟩ }
      match a2.actual_to_visible (actual_idx + 1) with
      | some new_visible_idx => { a2 with selected := new_visible_idx }
      | none => a2
    else a

/-- Rust `String::len()`: the number of UTF-8 BYTES of the string, not the
number of code points. -/
def utf8Length (s : List Char) : Nat :=
  (s.map Char.utf8Size).sum

/-- `App::enter_edit_mode`.  Note `edit_cursor` is seeded with
`self.edit_buffer.len()` — a byte count (`utf8Length`), while every other use
of `edit_cursor` in the code treats it as a code-point index. -/
def App.enter_edit_mode (a : App) : App :=
  match a.visible_to_actual a.selected with
  | none => a
  | some actual_idx =>
    match a.backlog.items[actual_idx]? with
    | none => a
    | some it =>
      { a with edit_buffer := it.description,
               edit_cursor := utf8Length it.description,
               mode := Mode.edit }

/-- `App::confirm_edit` (the description is overwritten with the buffer with
no emptiness check; `mode = Normal` is set unconditionally afterwards). -/
def App.confirm_edit (a : App) : App :=
  let a2 :=
    match a.visible_to_actual a.selected with
    | none => a
    | some actual_idx =>
      { a with backlog :=
          ⟨modifyAt (fun it => { it with description := a.edit_buffer }) actual_idx a.backlog.items⟩ }
  { a2 with mode := Mode.normal }

/-- `App::cancel_edit`. -/
def App.cancel_edit (a : App) : App :=
  { a with mode := Mode.normal }

/-- `App::select_item`. -/
def App.select_item (a : App) : App :=
  match a.visible_to_actual a.selected with
  | none => a
  | some actual_idx =>
    match a.backlog.items[actual_idx]? with
    | none => a
    | some it => { a with output := some it.description }

/-- `App::delete_selected`. -/
def App.delete_selected (a : App) : App :=
  let a2 :=
    match a.visible_to_actual a.selected with
    | none => a
    | some actual_idx =>
      clampSelection { a with backlog := ⟨a.backlog.items.eraseIdx actual_idx⟩ }
  { a2 with mode := Mode.normal }

/-- `App::enter_add_mode`. -/
def App.enter_add_mode (a : App) : App :=
  { a with edit_buffer := [], edit_cursor := 0, mode := Mode.add }

/-- `App::confirm_add` (`now` is the `Utc::now()` timestamp).  The new item is
pushed only when the buffer is non-empty; the selection becomes
`visible.len() - 1` computed on the store after the push. -/
def App.confirm_add (now : Nat) (a : App) : App :=
  let a2 :=
    if a.edit_buffer ≠ [] then
      let pushed : App :=
        { a with backlog := ⟨a.backlog.items ++ [⟨a.edit_buffer, now, false⟩]⟩ }
      { pushed with selected := pushed.visible_count - 1 }
    else a
  { a2 with mode := Mode.normal }

/-- `App::cancel_add`. -/
def App.cancel_add (a : App) : App :=
  { a with mode := Mode.normal }

/-! ### List renderer (`impl Widget for BacklogList`) -/

/-- Structural worker for `chunksOf`: the fuel only bounds the recursion depth
and is irrelevant whenever `fuel ≥ l.length` and `w ≥ 1` (the renderer's only
use), keeping the definition kernel-reducible. -/
def chunksGo (w : Nat) : Nat → List Char → List (List Char)
  | _, [] => []
  | 0, _ :: _ => []
  | fuel + 1, x :: xs => (x :: xs).take w :: chunksGo w fuel ((x :: xs).drop w)

/-- Rust slice `chunks`: split into runs of `w` elements (last may be
shorter).  Only called with `w > 0` and a non-empty list in the renderer. -/
def chunksOf (w : Nat) (l : List Char) : List (List Char) :=
  chunksGo w l.length l

/-- The renderer's description wrapping: `chunks(text_width)` when
`text_width > 0` and the description is non-empty, otherwise the raw
description as a single line. -/
def wrapDesc (text_width : Nat) (desc : List Char) : List (List Char) :=
  if 0 < text_width ∧ desc ≠ [] then chunksOf text_width desc else [desc]

/-- The renderer's row number: `if renumber { visible_idx + 1 } else { original_idx + 1 }`. -/
def displayNum (renumber : Bool) (visible_idx original_idx : Nat) : Nat :=
  if renumber then visible_idx + 1 else original_idx + 1

/-- The `(original_index, item)` pairs built in `run_tui`'s draw closure:
`items.iter().enumerate().filter(|(_, item)| !hide_completed || !item.done)`. -/
def visiblePairs (hide_completed : Bool) (items : List BacklogItem) : List (Nat × BacklogItem) :=
  (enumF 0 items).filter (fun p => vispred hide_completed p.2)

/-- The numbers the renderer paints for the rows, in order (scroll offset 0):
row at visible position `visible_idx` holding original index `original_idx`
shows `displayNum renumber visible_idx original_idx`.  `run_tui` passes
`renumber := hide_completed`. -/
def rowNumbers (renumber : Bool) (pairs : List (Nat × BacklogItem)) : List Nat :=
  (enumF 0 pairs).map (fun q => displayNum renumber q.1 q.2.1)

/-- The per-frame viewport-height estimate of `run_tui`:
`(chunks[0].height.saturating_sub(2) / 2)` — a FIXED two-lines-per-item
estimate, not derived from the items' wrapped line counts. -/
def listHeight (chunk_height : Nat) : Nat :=
  (chunk_height - 2) / 2

/-- The per-frame scroll adjustment of `run_tui`. -/
def adjustScroll (list_height selected scroll_offset : Nat) : Nat :=
  if selected < scroll_offset then selected
  else if 0 < list_height ∧ scroll_offset + list_height ≤ selected then
    selected - list_height + 1
  else scroll_offset

/-- Wrapped terminal-line counts of the rows, at a given text width. -/
def lineCounts (text_width : Nat) (items : List BacklogItem) : List Nat :=
  items.map (fun it => (wrapDesc text_width it.description).length)

/-- How many rows of the given wrapped-line counts receive at least one
terminal line in the render loop, starting from cursor line `y`: a row is
entered only while `y < inner_height`, and emitting its lines advances `y` by
its line count. -/
def drawnFrom (inner_height y : Nat) : List Nat → Nat
  | [] => 0
  | c :: cs => if y < inner_height then 1 + drawnFrom inner_height (y + c) cs else 0

/-- The selected row is inside the actually painted window: at least one of
its wrapped lines is emitted (rows are drawn from `scroll_offset` on). -/
def selectedDrawn (inner_height : Nat) (counts : List Nat) (scroll_offset selected : Nat) : Prop :=
  scroll_offset ≤ selected ∧
    selected < scroll_offset + drawnFrom inner_height 0 (counts.drop scroll_offset)

/-! ### Key-event state machine (`run_tui`) -/

/-- The `crossterm` key codes the loop distinguishes. -/
inductive KeyCode where
  | char (c : Char)
  | down
  | up
  | left
  | right
  | enter
  | esc
  | backspace
  | delete
  | otherKey
deriving DecidableEq

/-- A key press: code plus whether SHIFT is held. -/
structure KeyEvent where
  code : KeyCode
  shift : Bool
deriving DecidableEq

/-- Rust `Vec::insert` on the char vector.  Rust panics when the index is past
the end; the totalization appends instead (that state is only reachable
through the `enter_edit_mode` byte-length cursor). -/
def insertAt : Nat → Char → List Char → List Char
  | 0, c, l => c :: l
  | _ + 1, c, [] => [c]
  | n + 1, c, x :: xs => x :: insertAt n c xs

/-- The `Mode::Normal` arm of the key match, in source order. -/
def stepNormal (a : App) (k : KeyEvent) : App :=
  if k.code = KeyCode.char 'q' ∨ k.code = KeyCode.esc then { a with running := false }
  else if k.code = KeyCode.char 'J' ∧ k.shift = true then { a.move_item_down with pending_d := false }
  else if k.code = KeyCode.char 'K' ∧ k.shift = true then { a.move_item_up with pending_d := false }
  else if k.code = KeyCode.down ∧ k.shift = true then { a.move_item_down with pending_d := false }
  else if k.code = KeyCode.up ∧ k.shift = true then { a.move_item_up with pending_d := false }
  else if k.code = KeyCode.char 'j' ∨ k.code = KeyCode.down then { a.move_down with pending_d := false }
  else if k.code = KeyCode.char 'k' ∨ k.code = KeyCode.up then { a.move_up with pending_d := false }
  else if k.code = KeyCode.char 'x' then { a.toggle_done with pending_d := false }
  else if k.code = KeyCode.char 'e' then { a.enter_edit_mode with pending_d := false }
  else if k.code = KeyCode.char 'a' then { a.enter_add_mode with pending_d := false }
  else if k.code = KeyCode.char 'h' then { a.toggle_hide_completed with pending_d := false }
  else if k.code = KeyCode.char 'd' then
    if a.pending_d then { a.delete_selected with pending_d := false }
    else { a with pending_d := true }
  else if k.code = KeyCode.delete ∨ k.code = KeyCode.backspace then
    { a with mode := Mode.confirmDelete, pending_d := false }
  else if k.code = KeyCode.enter then { a.select_item with running := false }
  else { a with pending_d := false }

/-- The `Mode::ConfirmDelete` arm. -/
def stepConfirmDelete (a : App) (k : KeyEvent) : App :=
  if k.code = KeyCode.char 'y' then a.delete_selected
  else if k.code = KeyCode.char 'n' ∨ k.code = KeyCode.esc then { a with mode := Mode.normal }
  else a

/-- The `Mode::Edit | Mode::Add` arm (`now` is the timestamp used if this
event commits an Add). -/
def stepEditAdd (now : Nat) (a : App) (k : KeyEvent) : App :=
  if k.code = KeyCode.enter then
    if a.mode = Mode.add then a.confirm_add now else a.confirm_edit
  else if k.code = KeyCode.esc then
    if a.mode = Mode.add then a.cancel_add else a.cancel_edit
  else if k.code = KeyCode.backspace then
    if 0 < a.edit_cursor then
      { a with edit_buffer := a.edit_buffer.eraseIdx (a.edit_cursor - 1),
               edit_cursor := a.edit_cursor - 1 }
    else a
  else if k.code = KeyCode.delete then
    if a.edit_cursor < a.edit_buffer.length then
      { a with edit_buffer := a.edit_buffer.eraseIdx a.edit_cursor }
    else a
  else if k.code = KeyCode.left then
    if 0 < a.edit_cursor then { a with edit_cursor := a.edit_cursor - 1 } else a
  else if k.code = KeyCode.right then
    if a.edit_cursor < a.edit_buffer.length then { a with edit_cursor := a.edit_cursor + 1 } else a
  else
    match k.code with
    | KeyCode.char c =>
      { a with edit_buffer := insertAt a.edit_cursor c a.edit_buffer,
               edit_cursor := a.edit_cursor + 1 }
    | _ => a

/-- One key event of the `run_tui` loop.  Once the loop has exited
(`running = false`) no further event is processed. -/
def step (now : Nat) (a : App) (k : KeyEvent) : App :=
  if a.running then
    match a.mode with
    | Mode.normal => stepNormal a k
    | Mode.confirmDelete => stepConfirmDelete a k
    | Mode.edit => stepEditAdd now a k
    | Mode.add => stepEditAdd now a k
  else a

/-- `App::new` (`run_tui` starts here after loading a non-empty backlog). -/
def App.new (items : List BacklogItem) : App :=
  { backlog := ⟨items⟩
    selected := 0
    scroll_offset := 0
    mode := Mode.normal
    edit_buffer := []
    edit_cursor := 0
    output := none
    pending_d := false
    hide_completed := false
    running := true }

/-- Process a whole sequence of key events, each with its timestamp. -/
def processEvents (evs : List (Nat × KeyEvent)) (a : App) : App :=
  evs.foldl (fun s e => step e.1 s e.2) a

/-- The selection invariant of the spec:
`0 <= selected < max(1, number_of_visible_items)`. -/
def Inv (a : App) : Prop :=
  a.selected < max 1 a.visible_count

/-- Proof-side recursive characterization of `visible_indices` (starting
index `n`). -/
def visAux (hide_completed : Bool) (n : Nat) : List BacklogItem → List Nat
  | [] => []
  | x :: xs =>
    if vispred hide_completed x then n :: visAux hide_completed (n + 1) xs
    else visAux hide_completed (n + 1) xs

/-! ### General lemmas about the helper functions -/

theorem chunksGo_nil (w fuel : Nat) : chunksGo w fuel [] = [] := by
  cases fuel <;> rfl

theorem chunksGo_flatten (w : Nat) (hw : w ≠ 0) :
    ∀ (fuel : Nat) (l : List Char), l.length ≤ fuel → (chunksGo w fuel l).flatten = l := by
  intro fuel
  induction fuel with
  | zero =>
    intro l hl
    have : l = [] := List.eq_nil_of_length_eq_zero (Nat.le_zero.mp hl)
    subst this
    simp [chunksGo]
  | succ fuel ih =>
    intro l hl
    cases l with
    | nil => simp [chunksGo]
    | cons x xs =>
      have hdrop : ((x :: xs).drop w).length ≤ fuel := by
        simp only [List.length_drop, List.length_cons]
        simp only [List.length_cons] at hl
        omega
      simp only [chunksGo, List.flatten_cons, ih _ hdrop, List.take_append_drop]

theorem chunksGo_length_le (w : Nat) :
    ∀ (fuel : Nat) (l : List Char), ∀ c ∈ chunksGo w fuel l, c.length ≤ w := by
  intro fuel
  induction fuel with
  | zero =>
    intro l c hc
    cases l <;> simp [chunksGo] at hc
  | succ fuel ih =>
    intro l c hc
    cases l with
    | nil => simp [chunksGo] at hc
    | cons x xs =>
      simp only [chunksGo, List.mem_cons] at hc
      rcases hc with rfl | hc
      · exact List.length_take_le _ _
      · exact ih _ _ hc

theorem chunksGo_dropLast_length (w : Nat) (hw : w ≠ 0) :
    ∀ (fuel : Nat) (l : List Char), l.length ≤ fuel →
      ∀ c ∈ (chunksGo w fuel l).dropLast, c.length = w := by
  intro fuel
  induction fuel with
  | zero =>
    intro l hl c hc
    have : l = [] := List.eq_nil_of_length_eq_zero (Nat.le_zero.mp hl)
    subst this
    simp [chunksGo] at hc
  | succ fuel ih =>
    intro l hl c hc
    cases l with
    | nil => simp [chunksGo] at hc
    | cons x xs =>
      simp only [chunksGo] at hc
      by_cases hrest : chunksGo w fuel ((x :: xs).drop w) = []
      · rw [hrest] at hc
        simp at hc
      · rw [List.dropLast_cons_of_ne_nil hrest, List.mem_cons] at hc
        have hdropne : (x :: xs).drop w ≠ [] := by
          intro hdnil
          exact hrest (by rw [hdnil]; exact chunksGo_nil w fuel)
        have hlen : w < (x :: xs).length := by
          by_contra hle
          exact hdropne (List.drop_eq_nil_of_le (by omega))
        rcases hc with rfl | hc
        · simp only [List.length_take]
          omega
        · have hdrop : ((x :: xs).drop w).length ≤ fuel := by
            simp only [List.length_drop, List.length_cons]
            simp only [List.length_cons] at hl
            omega
          exact ih _ hdrop _ hc

theorem enumF_map_fst_succ {α : Type} :
    ∀ (n : Nat) (l : List α), (enumF n l).map (fun q => q.1 + 1) = List.range' (n + 1) l.length := by
  intro n l
  induction l generalizing n with
  | nil => simp [enumF]
  | cons x xs ih => simp [enumF, List.range'_succ, ih]

theorem enumF_map_snd {α β : Type} (g : α → β) :
    ∀ (n : Nat) (l : List α), (enumF n l).map (fun q => g q.2) = l.map g := by
  intro n l
  induction l generalizing n with
  | nil => simp [enumF]
  | cons x xs ih => simp [enumF, ih]

theorem enumF_filter_map (hide_completed : Bool) :
    ∀ (n : Nat) (l : List BacklogItem),
      ((enumF n l).filter (fun p => vispred hide_completed p.2)).map Prod.fst =
        visAux hide_completed n l := by
  intro n l
  induction l generalizing n with
  | nil => simp [enumF, visAux]
  | cons x xs ih =>
    simp only [enumF, visAux, List.filter_cons]
    by_cases hx : vispred hide_completed x
    · simp [hx, ih]
    · simp [hx, ih]

theorem App.visible_indices_eq (a : App) :
    a.visible_indices = visAux a.hide_completed 0 a.backlog.items :=
  enumF_filter_map a.hide_completed 0 a.backlog.items

theorem visAux_cons_pos {hide_completed : Bool} {x : BacklogItem}
    (hx : vispred hide_completed x = true) (n : Nat) (xs : List BacklogItem) :
    visAux hide_completed n (x :: xs) = n :: visAux hide_completed (n + 1) xs := by
  simp [visAux, hx]

theorem visAux_cons_neg {hide_completed : Bool} {x : BacklogItem}
    (hx : vispred hide_completed x = false) (n : Nat) (xs : List BacklogItem) :
    visAux hide_completed n (x :: xs) = visAux hide_completed (n + 1) xs := by
  simp [visAux, hx]

theorem mem_visAux {hide_completed : Bool} {i : Nat} :
    ∀ {n : Nat} {l : List BacklogItem},
      i ∈ visAux hide_completed n l ↔
        ∃ j it, l[j]? = some it ∧ i = n + j ∧ vispred hide_completed it = true := by
  intro n l
  induction l generalizing n with
  | nil => simp [visAux]
  | cons x xs ih =>
    cases hx : vispred hide_completed x with
    | true =>
      rw [visAux_cons_pos hx, List.mem_cons, ih]
      constructor
      · rintro (rfl | ⟨j, it, hj, rfl, hit⟩)
        · exact ⟨0, x, by simp, by omega, hx⟩
        · exact ⟨j + 1, it, by simpa using hj, by omega, hit⟩
      · rintro ⟨j, it, hj, rfl, hit⟩
        cases j with
        | zero => left; omega
        | succ j' => right; exact ⟨j', it, by simpa using hj, by omega, hit⟩
    | false =>
      rw [visAux_cons_neg hx, ih]
      constructor
      · rintro ⟨j, it, hj, rfl, hit⟩
        exact ⟨j + 1, it, by simpa using hj, by omega, hit⟩
      · rintro ⟨j, it, hj, rfl, hit⟩
        cases j with
        | zero =>
          rw [List.getElem?_cons_zero] at hj
          injection hj with hj
          subst hj
          rw [hx] at hit
          cases hit
        | succ j' => exact ⟨j', it, by simpa using hj, by omega, hit⟩

theorem length_visAux (hide_completed : Bool) :
    ∀ (n : Nat) (l : List BacklogItem),
      (visAux hide_completed n l).length = List.countP (vispred hide_completed) l := by
  intro n l
  induction l generalizing n with
  | nil => simp [visAux]
  | cons x xs ih =>
    cases hx : vispred hide_completed x with
    | true => rw [visAux_cons_pos hx]; simp [ih, List.countP_cons, hx]
    | false => rw [visAux_cons_neg hx]; simp [ih, List.countP_cons, hx]

theorem visAux_append (hide_completed : Bool) (x : BacklogItem) :
    ∀ (n : Nat) (l : List BacklogItem),
      visAux hide_completed n (l ++ [x]) =
        visAux hide_completed n l ++
          (if vispred hide_completed x then [n + l.length] else []) := by
  intro n l
  induction l generalizing n with
  | nil => simp [visAux]
  | cons y ys ih =>
    rw [List.cons_append]
    cases hy : vispred hide_completed y with
    | true =>
      rw [visAux_cons_pos hy, visAux_cons_pos hy, ih, List.cons_append]
      have hn : n + 1 + ys.length = n + (y :: ys).length := by
        simp [List.length_cons]
        omega
      rw [hn]
    | false =>
      rw [visAux_cons_neg hy, visAux_cons_neg hy, ih]
      have hn : n + 1 + ys.length = n + (y :: ys).length := by
        simp [List.length_cons]
        omega
      rw [hn]

theorem position_cons_pos {p : Nat → Bool} {x : Nat} (hx : p x = true) (xs : List Nat) :
    position p (x :: xs) = some 0 := by
  simp [position, hx]

theorem position_cons_neg {p : Nat → Bool} {x : Nat} (hx : p x = false) (xs : List Nat) :
    position p (x :: xs) = (position p xs).map (· + 1) := by
  simp [position, hx]

theorem position_lt {p : Nat → Bool} :
    ∀ {l : List Nat} {v : Nat}, position p l = some v → v < l.length := by
  intro l
  induction l with
  | nil => intro v h; simp [position] at h
  | cons x xs ih =>
    intro v h
    cases hp : p x with
    | true =>
      rw [position_cons_pos hp] at h
      injection h with h
      simp [← h]
    | false =>
      rw [position_cons_neg hp] at h
      obtain ⟨u, hu, rfl⟩ := Option.map_eq_some'.mp h
      have := ih hu
      simp only [List.length_cons]
      omega

theorem position_getElem {p : Nat → Bool} :
    ∀ {l : List Nat} {v : Nat}, position p l = some v → ∃ x, l[v]? = some x ∧ p x = true := by
  intro l
  induction l with
  | nil => intro v h; simp [position] at h
  | cons x xs ih =>
    intro v h
    cases hp : p x with
    | true =>
      rw [position_cons_pos hp] at h
      injection h with h
      exact ⟨x, by simp [← h], hp⟩
    | false =>
      rw [position_cons_neg hp] at h
      obtain ⟨u, hu, rfl⟩ := Option.map_eq_some'.mp h
      obtain ⟨y, hy, hpy⟩ := ih hu
      exact ⟨y, by simpa using hy, hpy⟩

theorem position_eq_none {p : Nat → Bool} :
    ∀ {l : List Nat}, (∀ x ∈ l, p x = false) → position p l = none := by
  intro l
  induction l with
  | nil => intro _; rfl
  | cons x xs ih =>
    intro h
    rw [position_cons_neg (h x (by simp)), ih (fun y hy => h y (by simp [hy]))]
    rfl

theorem position_some_of_mem {i : Nat} :
    ∀ {l : List Nat}, i ∈ l → ∃ v, position (fun x => x == i) l = some v := by
  intro l
  induction l with
  | nil => intro h; simp at h
  | cons x xs ih =>
    intro h
    by_cases hx : x = i
    · exact ⟨0, position_cons_pos (by simp [hx]) xs⟩
    · have hmem : i ∈ xs := by
        rcases List.mem_cons.mp h with rfl | hmem
        · exact absurd rfl hx
        · exact hmem
      obtain ⟨v, hv⟩ := ih hmem
      refine ⟨v + 1, ?_⟩
      rw [position_cons_neg (by simp [hx]) xs, hv]
      rfl

theorem position_append_singleton {p : Nat → Bool} {y : Nat} :
    ∀ {l : List Nat}, (∀ x ∈ l, p x = false) → p y = true →
      position p (l ++ [y]) = some l.length := by
  intro l
  induction l with
  | nil => intro _ hy; simp [position, hy]
  | cons x xs ih =>
    intro h hy
    rw [List.cons_append, position_cons_neg (h x (by simp)) _,
      ih (fun z hz => h z (by simp [hz])) hy]
    rfl

theorem swapIdx_length {α : Type} (l : List α) (i j : Nat) :
    (swapIdx l i j).length = l.length := by
  unfold swapIdx
  cases hi : l[i]? <;> cases hj : l[j]? <;> simp [List.length_set]

theorem swapIdx_getElem_left {α : Type} {l : List α} {i j : Nat} {x y : α}
    (hij : i ≠ j) (hi : l[i]? = some x) (hj : l[j]? = some y) :
    (swapIdx l i j)[i]? = some y := by
  have hilt : i < l.length := by
    obtain ⟨h, _⟩ := List.getElem?_eq_some_iff.mp hi
    exact h
  unfold swapIdx
  rw [hi, hj]
  rw [List.getElem?_set_ne (Ne.symm hij), List.getElem?_set_self hilt]

theorem swapIdx_getElem_right {α : Type} {l : List α} {i j : Nat} {x y : α}
    (hij : i ≠ j) (hi : l[i]? = some x) (hj : l[j]? = some y) :
    (swapIdx l i j)[j]? = some x := by
  have hjlt : j < (l.set i y).length := by
    obtain ⟨h, _⟩ := List.getElem?_eq_some_iff.mp hj
    simpa [List.length_set] using h
  unfold swapIdx
  rw [hi, hj]
  rw [List.getElem?_set_self hjlt]

theorem swapIdx_getElem_other {α : Type} {l : List α} {i j k : Nat}
    (hki : k ≠ i) (hkj : k ≠ j) : (swapIdx l i j)[k]? = l[k]? := by
  unfold swapIdx
  cases hi : l[i]? with
  | none => cases hj : l[j]? <;> rfl
  | some x =>
    cases hj : l[j]? with
    | none => rfl
    | some y =>
      rw [List.getElem?_set_ne (Ne.symm hkj), List.getElem?_set_ne (Ne.symm hki)]

theorem modifyAt_length {α : Type} (f : α → α) :
    ∀ (i : Nat) (l : List α), (modifyAt f i l).length = l.length := by
  intro i l
  induction l generalizing i with
  | nil => cases i <;> rfl
  | cons x xs ih =>
    cases i with
    | zero => rfl
    | succ i' => simp [modifyAt, ih]

theorem modifyAt_getElem_self {α : Type} (f : α → α) :
    ∀ {i : Nat} {l : List α} {x : α}, l[i]? = some x → (modifyAt f i l)[i]? = some (f x) := by
  intro i l
  induction l generalizing i with
  | nil => intro x h; simp at h
  | cons y ys ih =>
    intro x h
    cases i with
    | zero =>
      rw [List.getElem?_cons_zero] at h
      injection h with h
      subst h
      simp [modifyAt]
    | succ i' =>
      rw [List.getElem?_cons_succ] at h
      simpa [modifyAt] using ih h

theorem modifyAt_getElem_other {α : Type} (f : α → α) :
    ∀ {i k : Nat} {l : List α}, k ≠ i → (modifyAt f i l)[k]? = l[k]? := by
  intro i k l
  induction l generalizing i k with
  | nil => intro _; cases i <;> rfl
  | cons y ys ih =>
    intro hki
    cases i with
    | zero =>
      cases k with
      | zero => exact absurd rfl hki
      | succ k' => simp [modifyAt]
    | succ i' =>
      cases k with
      | zero => simp [modifyAt]
      | succ k' => simpa [modifyAt] using ih (fun hh => hki (by omega))

theorem countP_modifyAt_congr {α : Type} (p : α → Bool) (f : α → α)
    (hp : ∀ x, p (f x) = p x) :
    ∀ (i : Nat) (l : List α), List.countP p (modifyAt f i l) = List.countP p l := by
  intro i l
  induction l generalizing i with
  | nil => cases i <;> rfl
  | cons x xs ih =>
    cases i with
    | zero => simp [modifyAt, List.countP_cons, hp]
    | succ i' => simp [modifyAt, List.countP_cons, ih]

theorem countP_modifyAt_ge {α : Type} (p : α → Bool) (f : α → α) :
    ∀ {i : Nat} {l : List α} {x : α}, l[i]? = some x → p (f x) = true →
      List.countP p l ≤ List.countP p (modifyAt f i l) := by
  intro i l
  induction l generalizing i with
  | nil => intro x h _; simp at h
  | cons y ys ih =>
    intro x h hfx
    cases i with
    | zero =>
      rw [List.getElem?_cons_zero] at h
      injection h with h
      subst h
      simp only [modifyAt, List.countP_cons, hfx]
      by_cases hy : p y = true <;> simp [hy] <;> omega
    | succ i' =>
      rw [List.getElem?_cons_succ] at h
      simp only [modifyAt, List.countP_cons]
      have := ih h hfx
      omega

/-! ### Claim theorems: renderer (C5, C2, C3) -/

/-- Claim C5: for every description and every `text_width ≥ 1`, the renderer's
wrapping splits the description into runs of exactly `text_width` code points
(the last run may be shorter), and concatenating the wrapped chunks in order
reconstructs the description exactly. -/
theorem C5_wrapping (text_width : Nat) (hw : 1 ≤ text_width) (desc : List Char) :
    (wrapDesc text_width desc).flatten = desc ∧
    (∀ c ∈ (wrapDesc text_width desc).dropLast, c.length = text_width) ∧
    (∀ c ∈ wrapDesc text_width desc, c.length ≤ text_width) := by
  have hw' : text_width ≠ 0 := by omega
  by_cases hd : desc = []
  · subst hd
    refine ⟨by simp [wrapDesc], by simp [wrapDesc], ?_⟩
    intro c hc
    simp [wrapDesc] at hc
    simp [hc]
  · unfold wrapDesc
    rw [if_pos (And.intro (by omega) hd)]
    unfold chunksOf
    exact ⟨chunksGo_flatten text_width hw' desc.length desc (Nat.le_refl _),
      chunksGo_dropLast_length text_width hw' desc.length desc (Nat.le_refl _),
      chunksGo_length_le text_width desc.length desc⟩

/-- Witness for C5 at the spec's own scenario: `text_width = 5`,
description `"abcdefghij"`. -/
theorem C5_wrapping_witness :
    1 ≤ 5 ∧
      ((wrapDesc 5 ['a', 'b', 'c', 'd', 'e', 'f', 'g', 'h', 'i', 'j']).flatten =
          ['a', 'b', 'c', 'd', 'e', 'f', 'g', 'h', 'i', 'j'] ∧
        (∀ c ∈ (wrapDesc 5 ['a', 'b', 'c', 'd', 'e', 'f', 'g', 'h', 'i', 'j']).dropLast,
          c.length = 5) ∧
        (∀ c ∈ wrapDesc 5 ['a', 'b', 'c', 'd', 'e', 'f', 'g', 'h', 'i', 'j'],
          c.length ≤ 5)) :=
  ⟨by decide, C5_wrapping 5 (by decide) ['a', 'b', 'c', 'd', 'e', 'f', 'g', 'h', 'i', 'j']⟩

/-- Counterexample to claim C2 as stated: with the hide-completed filter
active (`renumber = hide_completed = true`), on the store
`[done "x", pending "y"]` the single displayed row holds original index 1 but
is numbered `1`, not `1 + 1 = 2`: numbers compact instead of staying stable
against the unfiltered list. -/
theorem C2_counterexample :
    rowNumbers true (visiblePairs true [⟨['x'], 0, true⟩, ⟨['y'], 1, false⟩]) = [1] ∧
    (visiblePairs true [⟨['x'], 0, true⟩, ⟨['y'], 1, false⟩]).map (fun p => p.1 + 1) = [2] ∧
    rowNumbers true (visiblePairs true [⟨['x'], 0, true⟩, ⟨['y'], 1, false⟩]) ≠
      (visiblePairs true [⟨['x'], 0, true⟩, ⟨['y'], 1, false⟩]).map (fun p => p.1 + 1) := by
  decide

/-- Claim C2, amended: when the hide-completed filter is active the displayed
row numbers compact to sequential `1..N` over the displayed rows; when it is
inactive each row's number is its original actual index + 1, which coincides
with sequential `1..N` because every row is displayed. -/
theorem C2_numbering_amended (items : List BacklogItem) :
    rowNumbers true (visiblePairs true items) =
        List.range' 1 (visiblePairs true items).length ∧
    rowNumbers false (visiblePairs false items) =
        (visiblePairs false items).map (fun p => p.1 + 1) ∧
    rowNumbers false (visiblePairs false items) = List.range' 1 items.length := by
  have hfilter : visiblePairs false items = enumF 0 items := by
    unfold visiblePairs
    exact List.filter_eq_self.mpr (fun p _ => by simp [vispred])
  have hnumT : ∀ (pairs : List (Nat × BacklogItem)),
      rowNumbers true pairs = List.range' 1 pairs.length := by
    intro pairs
    unfold rowNumbers
    have : (fun q : Nat × (Nat × BacklogItem) => displayNum true q.1 q.2.1) =
        (fun q : Nat × (Nat × BacklogItem) => q.1 + 1) := by
      funext q
      simp [displayNum]
    rw [this]
    exact enumF_map_fst_succ 0 pairs
  have hnumF : ∀ (pairs : List (Nat × BacklogItem)),
      rowNumbers false pairs = pairs.map (fun p => p.1 + 1) := by
    intro pairs
    unfold rowNumbers
    have : (fun q : Nat × (Nat × BacklogItem) => displayNum false q.1 q.2.1) =
        (fun q : Nat × (Nat × BacklogItem) => (fun p : Nat × BacklogItem => p.1 + 1) q.2) := by
      funext q
      simp [displayNum]
    rw [this]
    exact enumF_map_snd (fun p => p.1 + 1) 0 pairs
  refine ⟨hnumT _, hnumF _, ?_⟩
  rw [hnumF, hfilter, enumF_map_fst_succ 0 items]

/-- Counterexample to claim C3 as stated: with a list chunk of height 12
(inner height 10) the code's window height is the fixed estimate
`listHeight 12 = 5`, so on six rows that each wrap to 3 terminal lines
(`text_width = 2`, six-character descriptions) and `selected = 4`,
`scroll_offset = 0`, the scroll adjustment leaves the offset at 0 although
only 4 rows receive any line — the selected row is NOT within the visible
window, because `h` is not re-derived from the wrapped-line accounting. -/
theorem C3_counterexample :
    listHeight 12 = 5 ∧
    adjustScroll (listHeight 12) 4 0 = 0 ∧
    ¬ selectedDrawn 10
        (lineCounts 2 (List.replicate 6 ⟨['a', 'a', 'a', 'a', 'a', 'a'], 0, false⟩)) 0 4 := by
  refine ⟨by decide, by decide, ?_⟩
  unfold selectedDrawn
  decide

/-- Claim C3, amended: the scroll offset is recomputed every render frame so
that `scroll_offset ≤ selected` and, whenever the height estimate `h` is
positive, `selected < scroll_offset + h`; but `h` is the fixed
conservative estimate `(list-chunk height − 2) / 2` (two terminal lines per
row), not a value derived from the wrapped-line accounting, so the selected
row can still fall outside the actually painted window (see the
counterexample). -/
theorem C3_scroll_amended (chunk_height selected scroll_offset : Nat) :
    adjustScroll (listHeight chunk_height) selected scroll_offset ≤ selected ∧
    (0 < listHeight chunk_height →
      selected <
        adjustScroll (listHeight chunk_height) selected scroll_offset +
          listHeight chunk_height) := by
  unfold adjustScroll
  split
  · constructor
    · omega
    · intro h
      omega
  · split
    · rename_i hcond
      constructor
      · omega
      · intro h
        omega
    · rename_i hlt hcond
      rw [not_and_or] at hcond
      constructor
      · omega
      · intro h
        omega

/-- Witness for C3's amended scroll property at a concrete frame. -/
theorem C3_scroll_amended_witness :
    0 < listHeight 12 ∧
      (adjustScroll (listHeight 12) 7 0 ≤ 7 ∧
        (0 < listHeight 12 →
          7 < adjustScroll (listHeight 12) 7 0 + listHeight 12)) :=
  ⟨by decide, C3_scroll_amended 12 7 0⟩

/-- Claim C1 (code bug): entering Edit mode on an item whose description
contains a non-ASCII code point seeds `edit_cursor` with the UTF-8 BYTE
length of the buffer (`String::len()`), which exceeds the number of code
points — `edit_cursor` is then not a valid code-point boundary of
`edit_buffer` (here: cursor 2 on the 1-code-point buffer `"é"`), breaking the
claimed invariant in a reachable session state. -/
theorem C1_edit_cursor_bug :
    (step 0 (App.new [⟨['é'], 0, false⟩]) ⟨KeyCode.char 'e', false⟩).mode = Mode.edit ∧
    (step 0 (App.new [⟨['é'], 0, false⟩]) ⟨KeyCode.char 'e', false⟩).edit_cursor = 2 ∧
    (step 0 (App.new [⟨['é'], 0, false⟩]) ⟨KeyCode.char 'e', false⟩).edit_buffer.length = 1 ∧
    ¬ ((step 0 (App.new [⟨['é'], 0, false⟩]) ⟨KeyCode.char 'e', false⟩).edit_cursor ≤
        (step 0 (App.new [⟨['é'], 0, false⟩]) ⟨KeyCode.char 'e', false⟩).edit_buffer.length) := by
  decide

/-! ### Claim theorems: visibility mapping, reordering, edit/add commits -/

/-- Claim C6: for every store and hide-completed flag,
`visible_to_actual (actual_to_visible i) = i` for every actual index `i` that
is currently visible, and `actual_to_visible i` returns nothing for every
actual index `i` that is hidden (present but done while the filter is on). -/
theorem C6_visible_roundtrip (a : App) (i : Nat) :
    (i ∈ a.visible_indices →
      ∃ v, a.actual_to_visible i = some v ∧ a.visible_to_actual v = some i) ∧
    (a.hide_completed = true → doneAt a.backlog.items i = true →
      a.actual_to_visible i = none) := by
  constructor
  · intro hmem
    obtain ⟨v, hv⟩ := position_some_of_mem hmem
    obtain ⟨x, hx, hpx⟩ := position_getElem hv
    have hxi : x = i := by simpa using hpx
    subst hxi
    exact ⟨v, hv, hx⟩
  · intro hhide hdone
    unfold App.actual_to_visible
    apply position_eq_none
    intro x hxmem
    cases hbe : (x == i) with
    | false => rfl
    | true =>
      exfalso
      have hxi : x = i := by simpa using hbe
      subst hxi
      rw [App.visible_indices_eq] at hxmem
      obtain ⟨j, it, hj, hij, hit⟩ := mem_visAux.mp hxmem
      have hjx : j = x := by omega
      subst hjx
      unfold doneAt at hdone
      rw [hj] at hdone
      simp only [] at hdone
      rw [hhide] at hit
      simp [vispred, hdone] at hit

/-- Witness for C6 on the store `[done "x", pending "y"]` with the filter on:
actual index 1 is visible and round-trips; actual index 0 is hidden and maps
to nothing. -/
theorem C6_visible_roundtrip_witness :
    (1 ∈ ({ App.new [⟨['x'], 0, true⟩, ⟨['y'], 0, false⟩] with
              hide_completed := true } : App).visible_indices ∧
      ∃ v,
        ({ App.new [⟨['x'], 0, true⟩, ⟨['y'], 0, false⟩] with
            hide_completed := true } : App).actual_to_visible 1 = some v ∧
        ({ App.new [⟨['x'], 0, true⟩, ⟨['y'], 0, false⟩] with
            hide_completed := true } : App).visible_to_actual v = some 1) ∧
    ({ App.new [⟨['x'], 0, true⟩, ⟨['y'], 0, false⟩] with
        hide_completed := true } : App).actual_to_visible 0 = none :=
  ⟨⟨by decide,
      (C6_visible_roundtrip
        { App.new [⟨['x'], 0, true⟩, ⟨['y'], 0, false⟩] with hide_completed := true } 1).1
        (by decide)⟩,
    (C6_visible_roundtrip
      { App.new [⟨['x'], 0, true⟩, ⟨['y'], 0, false⟩] with hide_completed := true } 0).2
      (by decide) (by decide)⟩

/-- Claim C8: `move_item_down` is a transposition: on the last actual index it
is a no-op (the whole state is unchanged); on any other selected item it
swaps exactly the store positions `actual_idx` and `actual_idx + 1`, leaves
every other item unchanged, and updates `selected` to the moved item's new
visible position (`actual_to_visible (actual_idx + 1)` on the new state). -/
theorem C8_move_item_down (a : App) (actual_idx : Nat)
    (h : a.visible_to_actual a.selected = some actual_idx) :
    (actual_idx = a.backlog.items.length - 1 → a.move_item_down = a) ∧
    (actual_idx < a.backlog.items.length - 1 →
      a.move_item_down.backlog.items[actual_idx]? = a.backlog.items[actual_idx + 1]? ∧
      a.move_item_down.backlog.items[actual_idx + 1]? = a.backlog.items[actual_idx]? ∧
      (∀ k, k ≠ actual_idx → k ≠ actual_idx + 1 →
        a.move_item_down.backlog.items[k]? = a.backlog.items[k]?) ∧
      a.move_item_down.actual_to_visible (actual_idx + 1) =
          some a.move_item_down.selected ∧
      a.move_item_down.backlog.items.length = a.backlog.items.length ∧
      a.move_item_down.mode = a.mode ∧
      a.move_item_down.hide_completed = a.hide_completed) := by
  have hidx : actual_idx ∈ a.visible_indices := List.get?_mem (by
    rw [List.get?_eq_getElem?]
    exact h)
  have hch := mem_visAux.mp (by rw [App.visible_indices_eq] at hidx; exact hidx)
  obtain ⟨j, it, hj, hij, hit⟩ := hch
  rw [show j = actual_idx from by omega] at hj
  constructor
  · intro hlast
    unfold App.move_item_down
    rw [h]
    simp only []
    rw [if_neg (by omega)]
  · intro hlt
    have hlen1 : actual_idx < a.backlog.items.length := by
      obtain ⟨hh, _⟩ := List.getElem?_eq_some_iff.mp hj
      exact hh
    have hlen2 : actual_idx + 1 < a.backlog.items.length := by omega
    have hj2 : a.backlog.items[actual_idx + 1]? = some a.backlog.items[actual_idx + 1] :=
      List.getElem?_eq_getElem hlen2
    have hne : actual_idx ≠ actual_idx + 1 := by omega
    have hswapL := swapIdx_getElem_left hne hj hj2
    have hswapR := swapIdx_getElem_right hne hj hj2
    have hmem2 : (actual_idx + 1) ∈
        visAux a.hide_completed 0 (swapIdx a.backlog.items actual_idx (actual_idx + 1)) :=
      mem_visAux.mpr ⟨actual_idx + 1, it, hswapR, by omega, hit⟩
    obtain ⟨v, hv⟩ := position_some_of_mem hmem2
    have hvta :
        App.actual_to_visible
            { a with backlog := ⟨swapIdx a.backlog.items actual_idx (actual_idx + 1)⟩ }
            (actual_idx + 1) = some v := by
      unfold App.actual_to_visible
      rw [App.visible_indices_eq]
      exact hv
    unfold App.move_item_down
    rw [h]
    simp only []
    rw [if_pos hlt, hvta]
    simp only []
    refine ⟨?_, ?_, ?_, ?_, ?_, by trivial, by trivial⟩
    · simpa using hswapL.trans hj2.symm
    · simpa using hswapR.trans hj.symm
    · intro k hk1 hk2
      simpa using swapIdx_getElem_other hk1 hk2
    · simpa [App.actual_to_visible, App.visible_indices_eq] using hv
    · simpa using swapIdx_length a.backlog.items actual_idx (actual_idx + 1)

/-- Witness for C8 on the store `["p", "q"]` with item 0 selected: moving it
down swaps positions 0 and 1 and the selection follows to visible position 1. -/
theorem C8_move_item_down_witness :
    (App.new [⟨['p'], 0, false⟩, ⟨['q'], 0, false⟩]).visible_to_actual
        (App.new [⟨['p'], 0, false⟩, ⟨['q'], 0, false⟩]).selected = some 0 ∧
    (0 < (App.new [⟨['p'], 0, false⟩, ⟨['q'], 0, false⟩]).backlog.items.length - 1 →
      (App.new [⟨['p'], 0, false⟩, ⟨['q'], 0, false⟩]).move_item_down.backlog.items[0]? =
          (App.new [⟨['p'], 0, false⟩, ⟨['q'], 0, false⟩]).backlog.items[1]? ∧
      (App.new [⟨['p'], 0, false⟩, ⟨['q'], 0, false⟩]).move_item_down.backlog.items[1]? =
          (App.new [⟨['p'], 0, false⟩, ⟨['q'], 0, false⟩]).backlog.items[0]? ∧
      (∀ k, k ≠ 0 → k ≠ 1 →
        (App.new [⟨['p'], 0, false⟩, ⟨['q'], 0, false⟩]).move_item_down.backlog.items[k]? =
          (App.new [⟨['p'], 0, false⟩, ⟨['q'], 0, false⟩]).backlog.items[k]?) ∧
      (App.new [⟨['p'], 0, false⟩, ⟨['q'], 0, false⟩]).move_item_down.actual_to_visible 1 =
          some (App.new [⟨['p'], 0, false⟩, ⟨['q'], 0, false⟩]).move_item_down.selected ∧
      (App.new [⟨['p'], 0, false⟩, ⟨['q'], 0, false⟩]).move_item_down.backlog.items.length =
          (App.new [⟨['p'], 0, false⟩, ⟨['q'], 0, false⟩]).backlog.items.length ∧
      (App.new [⟨['p'], 0, false⟩, ⟨['q'], 0, false⟩]).move_item_down.mode =
          (App.new [⟨['p'], 0, false⟩, ⟨['q'], 0, false⟩]).mode ∧
      (App.new [⟨['p'], 0, false⟩, ⟨['q'], 0, false⟩]).move_item_down.hide_completed =
          (App.new [⟨['p'], 0, false⟩, ⟨['q'], 0, false⟩]).hide_completed) :=
  ⟨by decide,
    (C8_move_item_down (App.new [⟨['p'], 0, false⟩, ⟨['q'], 0, false⟩]) 0 (by decide)).2⟩

/-- Claim C9: Enter in Add mode with a non-empty buffer appends exactly one
item at the end of the store (description = buffer, `done = false`, the
current timestamp) and selects its visible position; with an empty buffer it
is a silent no-op that only returns to Normal mode. -/
theorem C9_confirm_add (a : App) (now : Nat) :
    (a.edit_buffer ≠ [] →
      (a.confirm_add now).backlog.items =
          a.backlog.items ++ [⟨a.edit_buffer, now, false⟩] ∧
      (a.confirm_add now).mode = Mode.normal ∧
      (a.confirm_add now).selected = (a.confirm_add now).visible_count - 1 ∧
      (a.confirm_add now).actual_to_visible a.backlog.items.length =
          some (a.confirm_add now).selected) ∧
    (a.edit_buffer = [] → a.confirm_add now = { a with mode := Mode.normal }) := by
  have hvisnew :
      App.visible_indices
          { a with backlog := ⟨a.backlog.items ++ [⟨a.edit_buffer, now, false⟩]⟩ } =
        visAux a.hide_completed 0 a.backlog.items ++ [a.backlog.items.length] := by
    rw [App.visible_indices_eq]
    have hnew : vispred a.hide_completed ⟨a.edit_buffer, now, false⟩ = true := by
      simp [vispred]
    rw [show ({ a with backlog := ⟨a.backlog.items ++ [⟨a.edit_buffer, now, false⟩]⟩ } :
          App).backlog.items = a.backlog.items ++ [⟨a.edit_buffer, now, false⟩] from rfl,
      visAux_append a.hide_completed ⟨a.edit_buffer, now, false⟩ 0 a.backlog.items, hnew]
    simp
  constructor
  · intro hne
    have heq : a.confirm_add now =
        { a with backlog := ⟨a.backlog.items ++ [⟨a.edit_buffer, now, false⟩]⟩,
                 selected :=
                   App.visible_count
                     { a with backlog := ⟨a.backlog.items ++ [⟨a.edit_buffer, now, false⟩]⟩ } - 1,
                 mode := Mode.normal } := by
      unfold App.confirm_add
      rw [if_pos hne]
    rw [heq]
    refine ⟨rfl, rfl, rfl, ?_⟩
    unfold App.actual_to_visible App.visible_count
    have hproj :
        App.visible_indices
            { a with backlog := ⟨a.backlog.items ++ [⟨a.edit_buffer, now, false⟩]⟩,
                     selected :=
                       (App.visible_indices
                         { a with
                             backlog :=
                               ⟨a.backlog.items ++ [⟨a.edit_buffer, now, false⟩]⟩ }).length - 1,
                     mode := Mode.normal } =
          App.visible_indices
            { a with backlog := ⟨a.backlog.items ++ [⟨a.edit_buffer, now, false⟩]⟩ } := by
      rw [App.visible_indices_eq, App.visible_indices_eq]
    rw [hproj, hvisnew]
    have hfalse : ∀ x ∈ visAux a.hide_completed 0 a.backlog.items,
        (x == a.backlog.items.length) = false := by
      intro x hx
      obtain ⟨j, it, hj, hij, _⟩ := mem_visAux.mp hx
      obtain ⟨hjlt, _⟩ := List.getElem?_eq_some_iff.mp hj
      have hxlt : x < a.backlog.items.length := by omega
      simp
      omega
    rw [position_append_singleton hfalse (by simp)]
    simp
  · intro hemp
    unfold App.confirm_add
    rw [if_neg (by simp [hemp])]

/-- Witness for C9: committing Add with buffer `"n"` on a one-item store, and
with an empty buffer. -/
theorem C9_confirm_add_witness :
    (['n'] ≠ ([] : List Char) ∧
      (({ App.new [⟨['o'], 0, false⟩] with edit_buffer := ['n'] } : App).confirm_add
            7).backlog.items =
          ({ App.new [⟨['o'], 0, false⟩] with edit_buffer := ['n'] } : App).backlog.items ++
            [⟨['n'], 7, false⟩]) ∧
    (App.new [⟨['o'], 0, false⟩]).confirm_add 7 =
      { App.new [⟨['o'], 0, false⟩] with mode := Mode.normal } :=
  ⟨⟨by decide,
      ((C9_confirm_add { App.new [⟨['o'], 0, false⟩] with edit_buffer := ['n'] } 7).1
        (by decide)).1⟩,
    (C9_confirm_add (App.new [⟨['o'], 0, false⟩]) 7).2 rfl⟩

/-- Claim C10: committing Edit overwrites the selected item's description
with the edit buffer unconditionally — there is no empty-buffer skip, so this
holds for every buffer including the empty one — and returns to Normal mode;
everything else (other items, selection, the buffer itself) is unchanged. -/
theorem C10_confirm_edit (a : App) (actual_idx : Nat) (it : BacklogItem)
    (h : a.visible_to_actual a.selected = some actual_idx)
    (hit : a.backlog.items[actual_idx]? = some it) :
    a.confirm_edit.mode = Mode.normal ∧
    a.confirm_edit.backlog.items[actual_idx]? =
        some { it with description := a.edit_buffer } ∧
    (∀ k, k ≠ actual_idx → a.confirm_edit.backlog.items[k]? = a.backlog.items[k]?) ∧
    a.confirm_edit.selected = a.selected ∧
    a.confirm_edit.edit_buffer = a.edit_buffer := by
  unfold App.confirm_edit
  rw [h]
  refine ⟨rfl, ?_, ?_, rfl, rfl⟩
  · simpa using modifyAt_getElem_self _ hit
  · intro k hk
    simpa using modifyAt_getElem_other _ hk

/-- Witness for C10 with an EMPTY edit buffer: the selected item's
description is overwritten with the empty string. -/
theorem C10_confirm_edit_witness :
    (App.new [⟨['z'], 0, false⟩]).visible_to_actual
        (App.new [⟨['z'], 0, false⟩]).selected = some 0 ∧
    (App.new [⟨['z'], 0, false⟩]).backlog.items[0]? = some ⟨['z'], 0, false⟩ ∧
    (App.new [⟨['z'], 0, false⟩]).confirm_edit.backlog.items[0]? =
      some ⟨[], 0, false⟩ :=
  ⟨by decide, by decide,
    ((C10_confirm_edit (App.new [⟨['z'], 0, false⟩]) 0 ⟨['z'], 0, false⟩
        (by decide) (by decide)).2).1⟩

/-! ### The selection invariant (C4) -/

theorem visible_count_eq_countP (a : App) :
    a.visible_count = List.countP (vispred a.hide_completed) a.backlog.items := by
  unfold App.visible_count
  rw [App.visible_indices_eq, length_visAux]

theorem visible_to_actual_elim {a : App} {v actual_idx : Nat}
    (h : a.visible_to_actual v = some actual_idx) :
    ∃ it, a.backlog.items[actual_idx]? = some it ∧
      vispred a.hide_completed it = true := by
  have hidx : actual_idx ∈ a.visible_indices := List.get?_mem (by
    rw [List.get?_eq_getElem?]
    exact h)
  rw [App.visible_indices_eq] at hidx
  obtain ⟨j, it, hj, hij, hit⟩ := mem_visAux.mp hidx
  rw [show j = actual_idx from by omega] at hj
  exact ⟨it, hj, hit⟩

theorem inv_clampSelection (a : App) : Inv (clampSelection a) := by
  unfold clampSelection
  simp only []
  split
  · show (0 : Nat) < max 1 (App.visible_count a)
    omega
  · rename_i hne
    split
    · have hpos : 0 < App.visible_count a := List.length_pos.mpr hne
      show App.visible_count a - 1 < max 1 (App.visible_count a)
      omega
    · rename_i hlt
      have hlt' : ¬(App.visible_count a ≤ a.selected) := hlt
      show a.selected < max 1 (App.visible_count a)
      omega

theorem inv_move_up (a : App) (h : Inv a) : Inv a.move_up := by
  unfold App.move_up
  split
  · have h' : a.selected < max 1 (App.visible_count a) := h
    show a.selected - 1 < max 1 (App.visible_count a)
    omega
  · exact h

theorem inv_move_down (a : App) (h : Inv a) : Inv a.move_down := by
  unfold App.move_down
  split
  · rename_i hc
    obtain ⟨hpos, hlt⟩ := hc
    show a.selected + 1 < max 1 (App.visible_count a)
    omega
  · exact h

theorem inv_toggle_hide (a : App) : Inv a.toggle_hide_completed :=
  inv_clampSelection { a with hide_completed := !a.hide_completed }

theorem inv_toggle_done (a : App) (h : Inv a) : Inv a.toggle_done := by
  unfold App.toggle_done
  cases hvta : a.visible_to_actual a.selected with
  | none => exact h
  | some actual_idx =>
    simp only []
    split
    · exact inv_clampSelection _
    · rename_i hcond
      obtain ⟨it, hj, hit⟩ := visible_to_actual_elim hvta
      have hmod := modifyAt_getElem_self (fun x => { x with done := !x.done }) hj
      have hvis : vispred a.hide_completed { it with done := !it.done } = true := by
        cases hhc : a.hide_completed with
        | false => simp [vispred]
        | true =>
          rw [hhc] at hcond
          have hdone : doneAt (modifyAt (fun x => { x with done := !x.done }) actual_idx
              a.backlog.items) actual_idx = !it.done := by
            unfold doneAt
            rw [hmod]
          simp only [hdone, Bool.true_and] at hcond
          simp only [Bool.not_eq_true, Bool.not_eq_false] at hcond
          simp [vispred, hcond]
      have hle := countP_modifyAt_ge (vispred a.hide_completed)
        (fun x => { x with done := !x.done }) hj hvis
      have hcount : App.visible_count { a with backlog :=
          ⟨modifyAt (fun x => { x with done := !x.done }) actual_idx a.backlog.items⟩ } =
          List.countP (vispred a.hide_completed)
            (modifyAt (fun x => { x with done := !x.done }) actual_idx a.backlog.items) :=
        visible_count_eq_countP _
      have hcounta : App.visible_count a =
          List.countP (vispred a.hide_completed) a.backlog.items := visible_count_eq_countP a
      have h' : a.selected < max 1 (App.visible_count a) := h
      show a.selected < max 1 (App.visible_count { a with backlog :=
        ⟨modifyAt (fun x => { x with done := !x.done }) actual_idx a.backlog.items⟩ })
      omega

theorem inv_move_item_down_op (a : App) (h : Inv a) : Inv a.move_item_down := by
  unfold App.move_item_down
  cases hvta : a.visible_to_actual a.selected with
  | none => exact h
  | some actual_idx =>
    simp only []
    split
    · rename_i hlt
      obtain ⟨it, hj, hit⟩ := visible_to_actual_elim hvta
      have hlen1 : actual_idx < a.backlog.items.length := by
        obtain ⟨hh, _⟩ := List.getElem?_eq_some_iff.mp hj
        exact hh
      have hlen2 : actual_idx + 1 < a.backlog.items.length := by omega
      have hj2 := List.getElem?_eq_getElem hlen2
      have hne : actual_idx ≠ actual_idx + 1 := by omega
      have hswapR := swapIdx_getElem_right hne hj hj2
      have hmem2 : (actual_idx + 1) ∈
          visAux a.hide_completed 0 (swapIdx a.backlog.items actual_idx (actual_idx + 1)) :=
        mem_visAux.mpr ⟨actual_idx + 1, it, hswapR, by omega, hit⟩
      obtain ⟨v, hv⟩ := position_some_of_mem hmem2
      have hvta2 : App.actual_to_visible
          { a with backlog := ⟨swapIdx a.backlog.items actual_idx (actual_idx + 1)⟩ }
          (actual_idx + 1) = some v := by
        unfold App.actual_to_visible
        rw [App.visible_indices_eq]
        exact hv
      rw [hvta2]
      simp only []
      have hvlt : v < (visAux a.hide_completed 0
          (swapIdx a.backlog.items actual_idx (actual_idx + 1))).length := position_lt hv
      have hcv : App.visible_count
          { a with backlog := ⟨swapIdx a.backlog.items actual_idx (actual_idx + 1)⟩ } =
          (visAux a.hide_completed 0
            (swapIdx a.backlog.items actual_idx (actual_idx + 1))).length := by
        unfold App.visible_count
        rw [App.visible_indices_eq]
      show v < max 1 (App.visible_count
        { a with backlog := ⟨swapIdx a.backlog.items actual_idx (actual_idx + 1)⟩ })
      omega
    · exact h

theorem inv_move_item_up_op (a : App) (h : Inv a) : Inv a.move_item_up := by
  unfold App.move_item_up
  cases hvta : a.visible_to_actual a.selected with
  | none => exact h
  | some actual_idx =>
    simp only []
    split
    · rename_i hpos
      obtain ⟨it, hj, hit⟩ := visible_to_actual_elim hvta
      have hlen1 : actual_idx < a.backlog.items.length := by
        obtain ⟨hh, _⟩ := List.getElem?_eq_some_iff.mp hj
        exact hh
      have hlen2 : actual_idx - 1 < a.backlog.items.length := by omega
      have hj2 := List.getElem?_eq_getElem hlen2
      have hne : actual_idx ≠ actual_idx - 1 := by omega
      have hswapR := swapIdx_getElem_right hne hj hj2
      have hmem2 : (actual_idx - 1) ∈
          visAux a.hide_completed 0 (swapIdx a.backlog.items actual_idx (actual_idx - 1)) :=
        mem_visAux.mpr ⟨actual_idx - 1, it, hswapR, by omega, hit⟩
      obtain ⟨v, hv⟩ := position_some_of_mem hmem2
      have hvta2 : App.actual_to_visible
          { a with backlog := ⟨swapIdx a.backlog.items actual_idx (actual_idx - 1)⟩ }
          (actual_idx - 1) = some v := by
        unfold App.actual_to_visible
        rw [App.visible_indices_eq]
        exact hv
      rw [hvta2]
      simp only []
      have hvlt : v < (visAux a.hide_completed 0
          (swapIdx a.backlog.items actual_idx (actual_idx - 1))).length := position_lt hv
      have hcv : App.visible_count
          { a with backlog := ⟨swapIdx a.backlog.items actual_idx (actual_idx - 1)⟩ } =
          (visAux a.hide_completed 0
            (swapIdx a.backlog.items actual_idx (actual_idx - 1))).length := by
        unfold App.visible_count
        rw [App.visible_indices_eq]
      show v < max 1 (App.visible_count
        { a with backlog := ⟨swapIdx a.backlog.items actual_idx (actual_idx - 1)⟩ })
      omega
    · exact h

theorem inv_delete_selected (a : App) (h : Inv a) : Inv a.delete_selected := by
  unfold App.delete_selected
  cases hvta : a.visible_to_actual a.selected with
  | none =>
    simp only []
    exact h
  | some actual_idx =>
    simp only []
    exact inv_clampSelection { a with backlog := ⟨a.backlog.items.eraseIdx actual_idx⟩ }

theorem inv_confirm_edit (a : App) (h : Inv a) : Inv a.confirm_edit := by
  unfold App.confirm_edit
  cases hvta : a.visible_to_actual a.selected with
  | none =>
    simp only []
    exact h
  | some actual_idx =>
    simp only []
    have hcount : App.visible_count { a with backlog :=
        ⟨modifyAt (fun it => { it with description := a.edit_buffer })
          actual_idx a.backlog.items⟩ } =
        List.countP (vispred a.hide_completed)
          (modifyAt (fun it => { it with description := a.edit_buffer })
            actual_idx a.backlog.items) := visible_count_eq_countP _
    have hcongr := countP_modifyAt_congr (vispred a.hide_completed)
      (fun it => { it with description := a.edit_buffer }) (fun x => rfl)
      actual_idx a.backlog.items
    have hcounta : App.visible_count a =
        List.countP (vispred a.hide_completed) a.backlog.items := visible_count_eq_countP a
    have h' : a.selected < max 1 (App.visible_count a) := h
    show a.selected < max 1 (App.visible_count { a with backlog :=
      ⟨modifyAt (fun it => { it with description := a.edit_buffer })
        actual_idx a.backlog.items⟩ })
    omega

theorem inv_confirm_add (now : Nat) (a : App) (h : Inv a) : Inv (a.confirm_add now) := by
  unfold App.confirm_add
  simp only []
  split
  · have hc : App.visible_count
        { a with backlog := ⟨a.backlog.items ++ [⟨a.edit_buffer, now, false⟩]⟩ } =
        List.countP (vispred a.hide_completed) a.backlog.items + 1 := by
      have h1 : App.visible_count
          { a with backlog := ⟨a.backlog.items ++ [⟨a.edit_buffer, now, false⟩]⟩ } =
          List.countP (vispred a.hide_completed)
            (a.backlog.items ++ [⟨a.edit_buffer, now, false⟩]) :=
        visible_count_eq_countP _
      rw [h1, List.countP_append]
      simp [vispred]
    show App.visible_count
        { a with backlog := ⟨a.backlog.items ++ [⟨a.edit_buffer, now, false⟩]⟩ } - 1 <
      max 1 (App.visible_count
        { a with backlog := ⟨a.backlog.items ++ [⟨a.edit_buffer, now, false⟩]⟩ })
    omega
  · exact h

theorem inv_enter_edit_mode (a : App) (h : Inv a) : Inv a.enter_edit_mode := by
  unfold App.enter_edit_mode
  cases hvta : a.visible_to_actual a.selected with
  | none => exact h
  | some actual_idx =>
    simp only []
    cases hit : a.backlog.items[actual_idx]? with
    | none => exact h
    | some it => exact h

theorem inv_select_item (a : App) (h : Inv a) : Inv a.select_item := by
  unfold App.select_item
  cases hvta : a.visible_to_actual a.selected with
  | none => exact h
  | some actual_idx =>
    simp only []
    cases hit : a.backlog.items[actual_idx]? with
    | none => exact h
    | some it => exact h

theorem inv_enter_add_mode (a : App) (h : Inv a) : Inv a.enter_add_mode := h

theorem inv_stepNormal (a : App) (k : KeyEvent) (h : Inv a) : Inv (stepNormal a k) := by
  obtain ⟨kc, ks⟩ := k
  unfold stepNormal
  cases kc with
  | char c =>
    by_cases h1 : c = 'q'
    · subst h1
      exact h
    rw [if_neg (show ¬(KeyCode.char c = KeyCode.char 'q' ∨ KeyCode.char c = KeyCode.esc) by
      simp [h1])]
    by_cases h2 : c = 'J' ∧ ks = true
    · obtain ⟨rfl, rfl⟩ := h2
      exact inv_move_item_down_op a h
    rw [if_neg (show ¬(KeyCode.char c = KeyCode.char 'J' ∧ ks = true) by simpa using h2)]
    by_cases h3 : c = 'K' ∧ ks = true
    · obtain ⟨rfl, rfl⟩ := h3
      exact inv_move_item_up_op a h
    rw [if_neg (show ¬(KeyCode.char c = KeyCode.char 'K' ∧ ks = true) by simpa using h3)]
    by_cases h4 : c = 'j'
    · subst h4
      exact inv_move_down a h
    rw [if_neg (show ¬(KeyCode.char c = KeyCode.char 'j' ∨ KeyCode.char c = KeyCode.down) by
      simp [h4])]
    by_cases h5 : c = 'k'
    · subst h5
      exact inv_move_up a h
    rw [if_neg (show ¬(KeyCode.char c = KeyCode.char 'k' ∨ KeyCode.char c = KeyCode.up) by
      simp [h5])]
    by_cases h6 : c = 'x'
    · subst h6
      exact inv_toggle_done a h
    rw [if_neg (show ¬(KeyCode.char c = KeyCode.char 'x') by simp [h6])]
    by_cases h7 : c = 'e'
    · subst h7
      exact inv_enter_edit_mode a h
    rw [if_neg (show ¬(KeyCode.char c = KeyCode.char 'e') by simp [h7])]
    by_cases h8 : c = 'a'
    · subst h8
      exact inv_enter_add_mode a h
    rw [if_neg (show ¬(KeyCode.char c = KeyCode.char 'a') by simp [h8])]
    by_cases h9 : c = 'h'
    · subst h9
      exact inv_toggle_hide a
    rw [if_neg (show ¬(KeyCode.char c = KeyCode.char 'h') by simp [h9])]
    by_cases h10 : c = 'd'
    · subst h10
      rw [if_neg (show ¬(KeyCode.char 'd' = KeyCode.down ∧ ks = true) by simp),
        if_neg (show ¬(KeyCode.char 'd' = KeyCode.up ∧ ks = true) by simp),
        if_pos (show KeyCode.char 'd' = KeyCode.char 'd' from rfl)]
      split
      · exact inv_delete_selected a h
      · exact h
    rw [if_neg (show ¬(KeyCode.char c = KeyCode.char 'd') by simp [h10])]
    exact h
  | down =>
    by_cases hks : ks = true
    · subst hks
      exact inv_move_item_down_op a h
    · rw [if_neg (show ¬(KeyCode.down = KeyCode.down ∧ ks = true) by simp [hks])]
      exact inv_move_down a h
  | up =>
    by_cases hks : ks = true
    · subst hks
      exact inv_move_item_up_op a h
    · rw [if_neg (show ¬(KeyCode.up = KeyCode.up ∧ ks = true) by simp [hks])]
      exact inv_move_up a h
  | left => exact h
  | right => exact h
  | enter => exact inv_select_item a h
  | esc => exact h
  | backspace => exact h
  | delete => exact h
  | otherKey => exact h

theorem inv_stepConfirmDelete (a : App) (k : KeyEvent) (h : Inv a) :
    Inv (stepConfirmDelete a k) := by
  obtain ⟨kc, ks⟩ := k
  unfold stepConfirmDelete
  cases kc with
  | char c =>
    by_cases h1 : c = 'y'
    · subst h1
      exact inv_delete_selected a h
    rw [if_neg (show ¬(KeyCode.char c = KeyCode.char 'y') by simp [h1])]
    by_cases h2 : c = 'n'
    · subst h2
      exact h
    rw [if_neg (show ¬(KeyCode.char c = KeyCode.char 'n' ∨ KeyCode.char c = KeyCode.esc) by
      simp [h2])]
    exact h
  | down => exact h
  | up => exact h
  | left => exact h
  | right => exact h
  | enter => exact h
  | esc => exact h
  | backspace => exact h
  | delete => exact h
  | otherKey => exact h

theorem inv_stepEditAdd (now : Nat) (a : App) (k : KeyEvent) (h : Inv a) :
    Inv (stepEditAdd now a k) := by
  obtain ⟨kc, ks⟩ := k
  unfold stepEditAdd
  cases kc with
  | enter =>
    rw [if_pos (show KeyCode.enter = KeyCode.enter from rfl)]
    split
    · exact inv_confirm_add now a h
    · exact inv_confirm_edit a h
  | esc =>
    rw [if_neg (show ¬(KeyCode.esc = KeyCode.enter) by simp),
      if_pos (show KeyCode.esc = KeyCode.esc from rfl)]
    split
    · exact h
    · exact h
  | backspace =>
    rw [if_neg (show ¬(KeyCode.backspace = KeyCode.enter) by simp),
      if_neg (show ¬(KeyCode.backspace = KeyCode.esc) by simp),
      if_pos (show KeyCode.backspace = KeyCode.backspace from rfl)]
    split
    · exact h
    · exact h
  | delete =>
    rw [if_neg (show ¬(KeyCode.delete = KeyCode.enter) by simp),
      if_neg (show ¬(KeyCode.delete = KeyCode.esc) by simp),
      if_neg (show ¬(KeyCode.delete = KeyCode.backspace) by simp),
      if_pos (show KeyCode.delete = KeyCode.delete from rfl)]
    split
    · exact h
    · exact h
  | left =>
    rw [if_neg (show ¬(KeyCode.left = KeyCode.enter) by simp),
      if_neg (show ¬(KeyCode.left = KeyCode.esc) by simp),
      if_neg (show ¬(KeyCode.left = KeyCode.backspace) by simp),
      if_neg (show ¬(KeyCode.left = KeyCode.delete) by simp),
      if_pos (show KeyCode.left = KeyCode.left from rfl)]
    split
    · exact h
    · exact h
  | right =>
    rw [if_neg (show ¬(KeyCode.right = KeyCode.enter) by simp),
      if_neg (show ¬(KeyCode.right = KeyCode.esc) by simp),
      if_neg (show ¬(KeyCode.right = KeyCode.backspace) by simp),
      if_neg (show ¬(KeyCode.right = KeyCode.delete) by simp),
      if_neg (show ¬(KeyCode.right = KeyCode.left) by simp),
      if_pos (show KeyCode.right = KeyCode.right from rfl)]
    split
    · exact h
    · exact h
  | char c => exact h
  | down => exact h
  | up => exact h
  | otherKey => exact h

theorem inv_step (now : Nat) (a : App) (k : KeyEvent) (h : Inv a) : Inv (step now a k) := by
  unfold step
  split
  · cases hm : a.mode with
    | normal => exact inv_stepNormal a k h
    | confirmDelete => exact inv_stepConfirmDelete a k h
    | edit => exact inv_stepEditAdd now a k h
    | add => exact inv_stepEditAdd now a k h
  · exact h

theorem inv_processEvents (evs : List (Nat × KeyEvent)) :
    ∀ (a : App), Inv a → Inv (processEvents evs a) := by
  induction evs with
  | nil => intro a h; exact h
  | cons e rest ih =>
    intro a h
    exact ih _ (inv_step e.1 a e.2 h)

/-- Claim C4: for every session started on a non-empty store and every
sequence of key events, after each step `0 ≤ selected < max(1, visible_count)`
holds; in particular when the visible set is empty `selected = 0` (the claim
holds after every prefix of the event sequence since the sequence is
universally quantified). -/
theorem C4_selected_invariant (items : List BacklogItem) (hne : items ≠ [])
    (evs : List (Nat × KeyEvent)) :
    Inv (processEvents evs (App.new items)) ∧
    ((processEvents evs (App.new items)).visible_count = 0 →
      (processEvents evs (App.new items)).selected = 0) := by
  have h0 : Inv (App.new items) := by
    show (0 : Nat) < max 1 (App.visible_count (App.new items))
    omega
  have hinv := inv_processEvents evs (App.new items) h0
  refine ⟨hinv, ?_⟩
  intro hc
  have h' : (processEvents evs (App.new items)).selected <
      max 1 (App.visible_count (processEvents evs (App.new items))) := hinv
  rw [hc] at h'
  omega

/-- Witness for C4 on a one-item store and the key sequence `j`, `x`, `h`. -/
theorem C4_selected_invariant_witness :
    [(⟨['w'], 0, false⟩ : BacklogItem)] ≠ [] ∧
      (Inv (processEvents
          [(0, ⟨KeyCode.char 'j', false⟩), (0, ⟨KeyCode.char 'x', false⟩),
            (0, ⟨KeyCode.char 'h', false⟩)]
          (App.new [⟨['w'], 0, false⟩])) ∧
        ((processEvents
            [(0, ⟨KeyCode.char 'j', false⟩), (0, ⟨KeyCode.char 'x', false⟩),
              (0, ⟨KeyCode.char 'h', false⟩)]
            (App.new [⟨['w'], 0, false⟩])).visible_count = 0 →
          (processEvents
            [(0, ⟨KeyCode.char 'j', false⟩), (0, ⟨KeyCode.char 'x', false⟩),
              (0, ⟨KeyCode.char 'h', false⟩)]
            (App.new [⟨['w'], 0, false⟩])).selected = 0)) :=
  ⟨by decide,
    C4_selected_invariant [⟨['w'], 0, false⟩] (by decide)
      [(0, ⟨KeyCode.char 'j', false⟩), (0, ⟨KeyCode.char 'x', false⟩),
        (0, ⟨KeyCode.char 'h', false⟩)]⟩

/-! ### Delete-path equivalence (C7) -/

/-- `delete_selected` reads only the store, selection and filter; the `mode`
and `pending_d` fields of the input are irrelevant (`mode` is overwritten,
`pending_d` passes through). -/
theorem delete_selected_irrelevant_fields (items : List BacklogItem) (sel so : Nat)
    (m1 m2 : Mode) (eb : List Char) (ec : Nat) (out : Option (List Char))
    (p1 p2 : Bool) (hc run : Bool) :
    { App.delete_selected ⟨⟨items⟩, sel, so, m1, eb, ec, out, p1, hc, run⟩ with
        pending_d := p2 } =
      App.delete_selected ⟨⟨items⟩, sel, so, m2, eb, ec, out, p2, hc, run⟩ := by
  unfold App.delete_selected
  dsimp only
  rw [show App.visible_to_actual ⟨⟨items⟩, sel, so, m1, eb, ec, out, p1, hc, run⟩ sel =
      App.visible_to_actual ⟨⟨items⟩, sel, so, m2, eb, ec, out, p2, hc, run⟩ sel from rfl]
  cases hv : App.visible_to_actual ⟨⟨items⟩, sel, so, m2, eb, ec, out, p2, hc, run⟩ sel with
  | none => rfl
  | some actual_idx =>
    dsimp only
    unfold clampSelection
    dsimp only
    rw [show App.visible_indices
          ⟨⟨items.eraseIdx actual_idx⟩, sel, so, m1, eb, ec, out, p1, hc, run⟩ =
        App.visible_indices
          ⟨⟨items.eraseIdx actual_idx⟩, sel, so, m2, eb, ec, out, p2, hc, run⟩ from rfl]
    split
    · rfl
    · split
      · rfl
      · rfl

/-- Claim C7: from the same Normal-mode session state (pending-delete flag
clear), pressing `d` `d` (the second press arrives with the flag armed) and
pressing Delete then `y` produce identical resulting states: the same item is
removed, the selection is reclamped identically, and every other field
agrees. -/
theorem C7_delete_paths_agree (a : App) (n1 n2 n3 n4 : Nat)
    (hm : a.mode = Mode.normal) (hp : a.pending_d = false) (hr : a.running = true) :
    step n2 (step n1 a ⟨KeyCode.char 'd', false⟩) ⟨KeyCode.char 'd', false⟩ =
      step n4 (step n3 a ⟨KeyCode.delete, false⟩) ⟨KeyCode.char 'y', false⟩ := by
  obtain ⟨⟨items⟩, sel, so, mo, eb, ec, out, pd, hc, run⟩ := a
  dsimp only at hm hp hr
  subst hm
  subst hp
  subst hr
  show { App.delete_selected ⟨⟨items⟩, sel, so, Mode.normal, eb, ec, out, true, hc, true⟩ with
      pending_d := false } =
    App.delete_selected ⟨⟨items⟩, sel, so, Mode.confirmDelete, eb, ec, out, false, hc, true⟩
  exact delete_selected_irrelevant_fields items sel so Mode.normal Mode.confirmDelete
    eb ec out true false hc true

/-- Witness for C7 at a concrete two-item state. -/
theorem C7_delete_paths_agree_witness :
    (App.new [⟨['p'], 0, false⟩, ⟨['q'], 0, true⟩]).mode = Mode.normal ∧
    (App.new [⟨['p'], 0, false⟩, ⟨['q'], 0, true⟩]).pending_d = false ∧
    (App.new [⟨['p'], 0, false⟩, ⟨['q'], 0, true⟩]).running = true ∧
    step 1 (step 0 (App.new [⟨['p'], 0, false⟩, ⟨['q'], 0, true⟩])
        ⟨KeyCode.char 'd', false⟩) ⟨KeyCode.char 'd', false⟩ =
      step 3 (step 2 (App.new [⟨['p'], 0, false⟩, ⟨['q'], 0, true⟩])
        ⟨KeyCode.delete, false⟩) ⟨KeyCode.char 'y', false⟩ :=
  ⟨rfl, rfl, rfl,
    C7_delete_paths_agree (App.new [⟨['p'], 0, false⟩, ⟨['q'], 0, true⟩]) 0 1 2 3 rfl rfl rfl⟩

end BacklogTui
